import Mathlib

/-!
Verification of the task scheduling and rescheduling engine of
`simple-task-repeater` (`src/simple_task_repeater/str_app.py`), as a shallow
embedding in Lean 4.  Python strings are embedded as `String`/`List Char`,
the heterogeneous command-field dict as an association list of `PyVal`,
`datetime` values as a calendar-day integer plus a time-of-day tag, and the
while loops of the rescheduler and of the suitable-date search as
fuel-indexed recursions (the fuel models the possibility that the source's
while loop does not terminate; `none` means the loop is still running after
`fuel` iterations).
-/

set_option autoImplicit false

/-! ## Python string primitives used by `_tokenize_message` -/

/-- Whitespace characters recognised by Python's `str.split()` family. -/
def pyIsSpace (c : Char) : Bool :=
  c = ' ' || c = '\t' || c = '\n' || c = '\x0d' || c = '\x0b' || c = '\x0c'

/-- Python `str.strip()` on a character list. -/
def pyStrip (s : List Char) : List Char :=
  ((s.dropWhile pyIsSpace).reverse.dropWhile pyIsSpace).reverse

/-- Python `s.split(maxsplit=2)`: at most two whitespace splits; the third
element, when present, is the untouched remainder (leading separator
whitespace consumed, internal and trailing whitespace kept). -/
def pySplitMax2 (s : List Char) : List (List Char) :=
  let s1 := s.dropWhile pyIsSpace
  if s1 = [] then []
  else
    let w1 := s1.takeWhile (fun c => !(pyIsSpace c))
    let r1 := (s1.dropWhile (fun c => !(pyIsSpace c))).dropWhile pyIsSpace
    if r1 = [] then [w1]
    else
      let w2 := r1.takeWhile (fun c => !(pyIsSpace c))
      let r2 := (r1.dropWhile (fun c => !(pyIsSpace c))).dropWhile pyIsSpace
      if r2 = [] then [w1, w2] else [w1, w2, r2]

/-- Python `s.split(sep=":")`: split at every colon, keeping empty segments;
the result is always nonempty. -/
def pySplitColon : List Char → List (List Char)
  | [] => [[]]
  | c :: cs =>
    if c = ':' then [] :: pySplitColon cs
    else
      match pySplitColon cs with
      | [] => [[c]]
      | t :: ts => (c :: t) :: ts

/-- Python `s.rsplit(maxsplit=1)`: split off the last whitespace-delimited
word; returns `[]` for all-whitespace input, one element when there is a
single word, two elements otherwise. -/
def pyRsplitMax1 (s : List Char) : List (List Char) :=
  let r := s.reverse.dropWhile pyIsSpace
  if r = [] then []
  else
    let w := (r.takeWhile (fun c => !(pyIsSpace c))).reverse
    let rest := (r.dropWhile (fun c => !(pyIsSpace c))).dropWhile pyIsSpace
    if rest = [] then [w] else [rest.reverse, w]

/-! ## Dates, dynamic values, field mappings -/

/-- Embedding of Python `datetime`: `day` is the calendar date as a day
number (`to_date`/`.date()` project onto it), `tod` tags the time of day.
`timedelta(days=n)` arithmetic moves `day` and keeps `tod`. -/
structure DT where
  day : ℤ
  tod : ℕ
deriving DecidableEq

/-- Dynamic values stored in the command-field dict: the tokenizer produces
strings, `_parse_task` replaces `date` by a datetime and `period` by an
integer. -/
inductive PyVal where
  | str : String → PyVal
  | dt : DT → PyVal
  | int : ℤ → PyVal
deriving DecidableEq

/-- A Python dict with string keys, as an association list without
duplicate keys (entries are created through `mSet` only). -/
abbrev Mapping := List (String × PyVal)

/-- Dict lookup. -/
def mGet : Mapping → String → Option PyVal
  | [], _ => none
  | (k, v) :: rest, key => if k = key then some v else mGet rest key

/-- Dict assignment: overwrite in place when the key exists, append
otherwise (Python insertion order). -/
def mSet : Mapping → String → PyVal → Mapping
  | [], key, v => [(key, v)]
  | (k, w) :: rest, key, v =>
    if k = key then (k, v) :: rest else (k, w) :: mSet rest key v

/-- Dict `del`. -/
def mDel : Mapping → String → Mapping
  | [], _ => []
  | (k, v) :: rest, key => if k = key then rest else (k, v) :: mDel rest key

/-- Python truthiness of the values that can occur in a field mapping. -/
def pyFalsy : PyVal → Bool
  | .str s => s = ""
  | .int n => n = 0
  | .dt _ => false

/-- Rendering of a value inside an f-string error message. -/
def pyStr : PyVal → String
  | .str s => s
  | .dt _ => "datetime"
  | .int n => toString n

/-! ## The command tokenizer (`_tokenize_message`) -/

/-- The attribute loop of `_tokenize_message`: for every colon segment but
the last, `result[key], key = map(str.strip, part.rsplit(maxsplit=1))`, and
finally `result[key] = parts[-1].strip()`.  A segment without a
whitespace-separated trailing word makes the tuple unpacking raise
`ValueError`. -/
def tokenTail : Mapping → String → List (List Char) → Except String Mapping
  | m, _, [] => .ok m
  | m, key, [last] => .ok (mSet m key (.str (String.mk (pyStrip last))))
  | m, key, seg :: seg2 :: rest =>
    match (pyRsplitMax1 seg).map (fun w => String.mk (pyStrip w)) with
    | [a, b] => tokenTail (mSet m key (.str a)) b (seg2 :: rest)
    | _ => .error "ValueError: not enough values to unpack"

/-- Embedding of `STRApp._tokenize_message`.  The input is the full message:
the method itself discards the leading command verb (`parts[0]`). -/
def tokenizeChars (msg : List Char) : Except String Mapping :=
  match pySplitMax2 msg with
  | [] => .error "ValueError: not enough values to unpack"
  | [_] => .error "No task shortcut provided"
  | [_, sc] => .ok [("shortcut", .str (String.mk sc))]
  | _ :: sc :: rest :: _ =>
    match tokenTail [("shortcut", .str (String.mk sc))] "text" (pySplitColon rest) with
    | .error e => .error e
    | .ok m =>
      match mGet m "text" with
      | none => .error "KeyError: text"
      | some v => if pyFalsy v then .ok (mDel m "text") else .ok m

/-- String-level wrapper of the tokenizer. -/
def tokenizeMessage (message : String) : Except String Mapping :=
  tokenizeChars message.data

/-! ## Tasks and the repository -/

/-- Modelled from the spec: the `Task` entity of `base.py` (a file of this
repository that is not under `src/`), with the fields of spec section 3:
owner, per-user-unique shortcut, optional free text, next due datetime,
recurrence period in days, reschedule policy flag, and the append-only
completion dates. -/
structure STask where
  user : String
  shortcut : String
  text : Option String
  date : DT
  period : ℤ
  reschedule : Bool
  completions : List DT
deriving DecidableEq

/-- Modelled from the spec: the repository state behind `STRDatabase`
(`str_database.py`, not under `src/`): registered user names plus the
stored tasks, keyed by user id then shortcut. -/
structure DB where
  users : List String
  tasks : List STask
deriving DecidableEq

/-- Modelled from the spec: `get_users_tasks(user)` returns the user's
stored tasks. -/
def getUsersTasks (db : DB) (u : String) : List STask :=
  db.tasks.filter (fun t => decide (t.user = u))

/-- Modelled from the spec: `get_task(user, shortcut)` fails when no stored
task matches. -/
def getTask (db : DB) (u sc : String) : Except String STask :=
  match db.tasks.find? (fun t => decide (t.user = u) && decide (t.shortcut = sc)) with
  | some t => .ok t
  | none => .error "NotFoundError: no such task"

/-- Modelled from the spec: `add_task(task)` inserts the task. -/
def addTask (db : DB) (t : STask) : DB :=
  { db with tasks := db.tasks ++ [t] }

/-- Replacement of one stored entry by `update_task`. -/
def updTask1 (t t' : STask) : STask :=
  if t'.user = t.user ∧ t'.shortcut = t.shortcut then t else t'

/-- Modelled from the spec: `update_task(task)` replaces the stored task
matching `(user, shortcut)`. -/
def updateTask (db : DB) (t : STask) : DB :=
  { db with tasks := db.tasks.map (updTask1 t) }

/-! ## The task field resolver (`_parse_task` and its helpers) -/

/-- Source constant `DEFAULT_PERIOD`. -/
def DEFAULT_PERIOD : ℤ := 4

/-- Source constant `TASK_PER_DAY_LIMIT`. -/
def TASK_PER_DAY_LIMIT : ℕ := 3

/-- Number of existing tasks whose `date` falls on calendar day `d`
(the `Counter` of `_determine_suitable_date`). -/
def countDay (tasks : List STask) (d : ℤ) : ℕ :=
  (tasks.filter (fun t => decide (t.date.day = d))).length

/-- The while loop of `_determine_suitable_date`: starting at `now`, walk
forward one day at a time while the current day already holds at least
`TASK_PER_DAY_LIMIT` tasks.  `none` means the loop is still running after
`fuel` iterations. -/
def suitableDateFuel : ℕ → DT → List STask → Option DT
  | 0, _, _ => none
  | fuel + 1, cur, tasks =>
    if TASK_PER_DAY_LIMIT ≤ countDay tasks cur.day then
      suitableDateFuel fuel ⟨cur.day + 1, cur.tod⟩ tasks
    else
      some cur

/-- Value of a decimal digit character. -/
def digitVal (c : Char) : Option ℕ :=
  if c.isDigit then some (c.toNat - 48) else none

/-- Accumulating decimal reading for `pyInt`. -/
def digitsToNatAux : ℕ → List Char → Option ℕ
  | acc, [] => some acc
  | acc, c :: cs =>
    match digitVal c with
    | some d => digitsToNatAux (10 * acc + d) cs
    | none => none

/-- Nonempty all-digit reading for `pyInt`. -/
def digitsToNat : List Char → Option ℕ
  | [] => none
  | l => digitsToNatAux 0 l

/-- Python `int(s)` on the strings the tokenizer can produce: optional
surrounding whitespace, optional sign, a nonempty digit run; `none` models
the `ValueError` raised on anything else.  Note that zero and negative
values parse fine. -/
def pyInt (s : String) : Option ℤ :=
  match pyStrip s.data with
  | '+' :: rest => (digitsToNat rest).map (fun n => (n : ℤ))
  | '-' :: rest => (digitsToNat rest).map (fun n => -(n : ℤ))
  | rest => (digitsToNat rest).map (fun n => (n : ℤ))

/-- Modelled from the spec: the external date-parsing collaborator applied
to a dict value.  The engine consumes it as "parse human text into a date,
or fail" (spec sections 1 and 6); `parser` gives its behaviour on text, and
applying it to a non-string value fails like `dateparser.parse` does on a
non-`str` argument. -/
def parseDateField (parser : String → Option DT) (v : PyVal) : Except String DT :=
  match v with
  | .str s =>
    match parser s with
    | some d => .ok d
    | none => .error "parse failure"
  | _ => .error "TypeError: input must be str"

/-- Date half of `_parse_task`: a present `date` field is parsed (any
failure is converted to `ValueError "Failed to parse date ..."` by the bare
`except`), an absent one is filled by `_determine_suitable_date`. -/
def parseTaskDate (parser : String → Option DT) (now : DT) (tasks : List STask)
    (m : Mapping) : Except String Mapping :=
  match mGet m "date" with
  | some v =>
    match parseDateField parser v with
    | .ok d => .ok (mSet m "date" (.dt d))
    | .error _ => .error ("Failed to parse date " ++ pyStr v)
  | none =>
    match suitableDateFuel (tasks.length + 1) now tasks with
    | some d => .ok (mSet m "date" (.dt d))
    | none => .error "unreachable: suitable-date loop out of fuel"

/-- Period half of `_parse_task`: a present `period` field goes through
`int(...)` (whose `ValueError` propagates uncaught), an absent one gets
`_determine_suitable_period`'s `DEFAULT_PERIOD`. -/
def parseTaskPeriod (m : Mapping) : Except String Mapping :=
  match mGet m "period" with
  | some (.str s) =>
    match pyInt s with
    | some n => .ok (mSet m "period" (.int n))
    | none => .error ("invalid literal for int: " ++ s)
  | some _ => .error "TypeError: int argument"
  | none => .ok (mSet m "period" (.int DEFAULT_PERIOD))

/-- Embedding of `STRApp._parse_task`; the user's existing tasks and the
clock are passed explicitly in place of the repository and clock
collaborators. -/
def parseTask (parser : String → Option DT) (now : DT) (tasks : List STask)
    (m : Mapping) : Except String Mapping :=
  match parseTaskDate parser now tasks m with
  | .ok m1 => parseTaskPeriod m1
  | .error e => .error e

/-- Embedding of `STRApp.parse_message`. -/
def parseMessage (parser : String → Option DT) (now : DT) (tasks : List STask)
    (message : String) : Except String Mapping :=
  match tokenizeMessage message with
  | .ok m => parseTask parser now tasks m
  | .error e => .error e

/-! ## The rescheduler loop of `_actualize_tasks` -/

/-- The per-task while loop of `_actualize_tasks`:
`while to_date(task.date) < to_date(today)`, either snap to `today`
(reschedule flag set) or add `period` days.  `none` means the loop is
still running after `fuel` iterations (the source loop genuinely diverges
for a non-positive period on an overdue task). -/
def catchUpFuel : ℕ → Bool → ℤ → DT → DT → Option DT
  | 0, _, _, _, _ => none
  | fuel + 1, res, p, today, date =>
    if date.day < today.day then
      if res then catchUpFuel fuel res p today today
      else catchUpFuel fuel res p today ⟨date.day + p, date.tod⟩
    else
      some date

/-- One task's pass through `_actualize_tasks`: run the catch-up loop on
its date. -/
def catchUpTask (fuel : ℕ) (now : DT) (task : STask) : Option STask :=
  match catchUpFuel fuel task.reschedule task.period now task.date with
  | some d => some { task with date := d }
  | none => none

/-- Catch up one task and write it back through the repository. -/
def actStep (fuel : ℕ) (now : DT) (db : DB) (task : STask) : Option DB :=
  match catchUpTask fuel now task with
  | some t' => some (updateTask db t')
  | none => none

/-- Inner `for task in get_users_tasks(user)` loop of `_actualize_tasks`. -/
def foldTasks (step : DB → STask → Option DB) : DB → List STask → Option DB
  | db, [] => some db
  | db, t :: ts =>
    match step db t with
    | some db' => foldTasks step db' ts
    | none => none

/-- One user's sweep: iterate the snapshot returned by `get_users_tasks`. -/
def actualizeUser (fuel : ℕ) (now : DT) (db : DB) (u : String) : Option DB :=
  foldTasks (actStep fuel now) db (getUsersTasks db u)

/-- Outer `for user in user_names` loop of `_actualize_tasks`. -/
def foldUsers (f : DB → String → Option DB) : DB → List String → Option DB
  | db, [] => some db
  | db, u :: us =>
    match f db u with
    | some db' => foldUsers f db' us
    | none => none

/-- Embedding of `STRApp._actualize_tasks`: the full sweep over all users
and tasks, with `now` the (constant, injected) clock reading. -/
def actualizeDB (fuel : ℕ) (now : DT) (db : DB) : Option DB :=
  foldUsers (actualizeUser fuel now) db db.users

/-! ## Command handlers -/

/-- Modelled from the spec: `STask(**fields)` construction used by `add`
(`base.py` is not under `src/`); the declared fields are read from the
resolved mapping, `completions` starts empty. -/
def buildTask (user : String) (m : Mapping) : Except String STask :=
  match mGet m "shortcut", mGet m "date", mGet m "period" with
  | some (.str sc), some (.dt d), some (.int p) =>
    .ok { user := user, shortcut := sc,
          text := (match mGet m "text" with | some (.str s) => some s | _ => none),
          date := d, period := p, reschedule := false, completions := [] }
  | _, _, _ => .error "TypeError: STask construction"

/-- Embedding of the `add` handler: tokenize, resolve, construct, insert,
reply. -/
def addCmd (parser : String → Option DT) (now : DT) (db : DB)
    (user message : String) : Except String (DB × String) :=
  match parseMessage parser now (getUsersTasks db user) message with
  | .error e => .error e
  | .ok m =>
    match buildTask user m with
    | .error e => .error e
    | .ok task => .ok (addTask db task, "Added task " ++ task.shortcut)

/-- Embedding of `task.__dict__.update(update)` in the `update` handler,
restricted to the declared `Task` fields that the parsed mapping can
carry with a type fitting the field: `user`, `shortcut` and `text` take
string values, `date` a resolved datetime, `period` a resolved integer.
(A message attribute named `reschedule` or `completions` would store a raw
string into a non-string field in Python; such type-confused writes are
outside this typed model and the theorems about it assume those keys are
absent.) -/
def applyUpdate (t : STask) (m : Mapping) : STask :=
  { t with
    user := (match mGet m "user" with | some (.str s) => s | _ => t.user),
    shortcut := (match mGet m "shortcut" with | some (.str s) => s | _ => t.shortcut),
    text := (match mGet m "text" with | some (.str s) => some s | _ => t.text),
    date := (match mGet m "date" with | some (.dt d) => d | _ => t.date),
    period := (match mGet m "period" with | some (.int n) => n | _ => t.period) }

/-- Embedding of the `update` handler: parse the message, fetch the stored
task by shortcut, overlay the parsed fields, persist. -/
def updateCmd (parser : String → Option DT) (now : DT) (db : DB)
    (user message : String) : Except String (DB × String) :=
  match parseMessage parser now (getUsersTasks db user) message with
  | .error e => .error e
  | .ok m =>
    match mGet m "shortcut" with
    | some (.str sc) =>
      match getTask db user sc with
      | .error e => .error e
      | .ok t0 =>
        let t1 := applyUpdate t0 m
        .ok (updateTask db t1, "Successfully updated task " ++ t1.shortcut)
    | _ => .error "KeyError: shortcut"

/-- Tail of the `complete` handler after the completion date is known:
fetch the task, append the completion, set the date one period past the
completion moment, persist.  The Python handler returns `None`; the reply
is modelled as the empty string. -/
def completeFinish (db : DB) (user : String) (m : Mapping) (d : DT) :
    Except String (DB × String) :=
  match mGet m "shortcut" with
  | some (.str sc) =>
    match getTask db user sc with
    | .error e => .error e
    | .ok t =>
      let t1 := { t with completions := t.completions ++ [d],
                         date := ⟨d.day + t.period, d.tod⟩ }
      .ok (updateTask db t1, "")
  | _ => .error "KeyError: shortcut"

/-- Embedding of the `complete` handler.  Note it runs the full
`parse_message` resolution (not just the tokenizer) and then applies
`parse_date` to whatever the resolved mapping holds under `date`. -/
def completeCmd (parser : String → Option DT) (now : DT) (db : DB)
    (user message : String) : Except String (DB × String) :=
  match parseMessage parser now (getUsersTasks db user) message with
  | .error e => .error e
  | .ok m =>
    match mGet m "date" with
    | some v =>
      match parseDateField parser v with
      | .error e => .error e
      | .ok d => completeFinish db user m d
    | none => completeFinish db user m now

/-! ## General list helpers -/

theorem takeWhile_append_of_all {α : Type} {p : α → Bool} {l r : List α}
    (h : ∀ c ∈ l, p c = true) :
    (l ++ r).takeWhile p = l ++ r.takeWhile p := by
  induction l with
  | nil => simp
  | cons a l ih =>
    have ha := h a (List.mem_cons_self a l)
    simp [List.takeWhile_cons, ha, ih (fun c hc => h c (List.mem_cons_of_mem a hc))]

theorem dropWhile_append_of_all {α : Type} {p : α → Bool} {l r : List α}
    (h : ∀ c ∈ l, p c = true) :
    (l ++ r).dropWhile p = r.dropWhile p := by
  induction l with
  | nil => simp
  | cons a l ih =>
    have ha := h a (List.mem_cons_self a l)
    simp [List.dropWhile_cons, ha, ih (fun c hc => h c (List.mem_cons_of_mem a hc))]

theorem takeWhile_eq_nil_of_all {α : Type} {p : α → Bool} {l : List α}
    (h : ∀ c ∈ l, p c = false) :
    l.takeWhile p = [] := by
  cases l with
  | nil => simp
  | cons a l => simp [List.takeWhile_cons, h a (List.mem_cons_self a l)]

theorem dropWhile_eq_nil_of_all {α : Type} {p : α → Bool} {l : List α}
    (h : ∀ c ∈ l, p c = true) :
    l.dropWhile p = [] := by
  induction l with
  | nil => simp
  | cons a l ih =>
    simp [List.dropWhile_cons, h a (List.mem_cons_self a l),
      ih (fun c hc => h c (List.mem_cons_of_mem a hc))]

theorem dropWhile_eq_self_of_head {α : Type} {p : α → Bool} {a : α} {l : List α}
    (h : p a = false) :
    (a :: l).dropWhile p = a :: l := by
  simp [List.dropWhile_cons, h]

/-! ## Claim C1 -/

/-- C1 counterexample: with the command verb already stripped, the
tokenizer does not return the mappings the claim states.  On `"abc"` the
source takes the single token for the discarded command verb and raises
`ValueError("No task shortcut provided")`, and on
`"abc period:2 date:2024-01-01"` the attribute loop crashes unpacking
`"date".rsplit(maxsplit=1)` instead of returning a mapping. -/
theorem c1_tokenize_counterexample :
    tokenizeMessage "abc" = .error "No task shortcut provided" ∧
    tokenizeMessage "abc" ≠ .ok [("shortcut", PyVal.str "abc")] ∧
    tokenizeMessage "abc period:2 date:2024-01-01" =
      .error "ValueError: not enough values to unpack" ∧
    tokenizeMessage "abc period:2 date:2024-01-01" ≠
      .ok [("shortcut", PyVal.str "abc"), ("period", PyVal.str "2"),
           ("date", PyVal.str "2024-01-01")] := by
  refine ⟨rfl, fun h => Except.noConfusion h, rfl, fun h => Except.noConfusion h⟩

/-- C1 amended: `_tokenize_message` receives the full message and discards
its first whitespace token as the command verb.  With a verb prefixed, the
first, second and fourth examples behave as the claim states; the no-text
example `"abc period:2 date:2024-01-01"` does not return a mapping but
fails with a `ValueError` from the attribute-key unpacking. -/
theorem c1_tokenize_examples_amended :
    tokenizeMessage "/t abc" = .ok [("shortcut", PyVal.str "abc")] ∧
    tokenizeMessage "/t abc buy milk period:2" =
      .ok [("shortcut", PyVal.str "abc"), ("text", PyVal.str "buy milk"),
           ("period", PyVal.str "2")] ∧
    tokenizeMessage "" = .error "ValueError: not enough values to unpack" ∧
    tokenizeMessage "/t abc period:2 date:2024-01-01" =
      .error "ValueError: not enough values to unpack" := by
  refine ⟨rfl, rfl, rfl, rfl⟩

/-! ## Claim C10 -/

theorem takeWhile_cons_append_neg {α : Type} {p : α → Bool} {a : α} {l r : List α}
    (h : p a = false) :
    ((a :: l) ++ r).takeWhile p = [] := by
  simp [List.cons_append, List.takeWhile_cons, h]

theorem dropWhile_cons_append_neg {α : Type} {p : α → Bool} {a : α} {l r : List α}
    (h : p a = false) :
    ((a :: l) ++ r).dropWhile p = (a :: l) ++ r := by
  simp [List.cons_append, List.dropWhile_cons, h]

/-- C10: when the remainder after the verb token is exactly one
whitespace-delimited token (even one containing colons), the tokenizer
returns only that token as the shortcut: no text, no attributes, no
colon-splitting. -/
theorem c10_single_token_shortcut (verb sep tok trail : List Char)
    (hv : verb ≠ []) (hvs : ∀ c ∈ verb, pyIsSpace c = false)
    (hs : sep ≠ []) (hss : ∀ c ∈ sep, pyIsSpace c = true)
    (ht : tok ≠ []) (hts : ∀ c ∈ tok, pyIsSpace c = false)
    (htr : ∀ c ∈ trail, pyIsSpace c = true) :
    tokenizeMessage (String.mk (verb ++ sep ++ tok ++ trail)) =
      .ok [("shortcut", PyVal.str (String.mk tok))] := by
  obtain ⟨v, vs, rfl⟩ := List.exists_cons_of_ne_nil hv
  obtain ⟨s0, ss, rfl⟩ := List.exists_cons_of_ne_nil hs
  obtain ⟨t0, ts, rfl⟩ := List.exists_cons_of_ne_nil ht
  have hvhead : pyIsSpace v = false := hvs v (List.mem_cons_self v vs)
  have hshead : pyIsSpace s0 = true := hss s0 (List.mem_cons_self s0 ss)
  have hthead : pyIsSpace t0 = false := hts t0 (List.mem_cons_self t0 ts)
  have e1 : ((v :: vs) ++ ((s0 :: ss) ++ ((t0 :: ts) ++ trail))).dropWhile pyIsSpace
      = (v :: vs) ++ ((s0 :: ss) ++ ((t0 :: ts) ++ trail)) :=
    dropWhile_cons_append_neg hvhead
  have e2 : ((v :: vs) ++ ((s0 :: ss) ++ ((t0 :: ts) ++ trail))).takeWhile
      (fun c => !(pyIsSpace c)) = v :: vs := by
    rw [takeWhile_append_of_all (l := v :: vs) (fun c hc => by simp [hvs c hc])]
    rw [takeWhile_cons_append_neg (by simp [hshead])]
    simp
  have e3 : (((v :: vs) ++ ((s0 :: ss) ++ ((t0 :: ts) ++ trail))).dropWhile
      (fun c => !(pyIsSpace c))).dropWhile pyIsSpace = (t0 :: ts) ++ trail := by
    rw [dropWhile_append_of_all (l := v :: vs) (fun c hc => by simp [hvs c hc])]
    rw [dropWhile_cons_append_neg (by simp [hshead])]
    rw [dropWhile_append_of_all (l := s0 :: ss) hss]
    exact dropWhile_cons_append_neg hthead
  have e4 : ((t0 :: ts) ++ trail).takeWhile (fun c => !(pyIsSpace c)) = t0 :: ts := by
    rw [takeWhile_append_of_all (l := t0 :: ts) (fun c hc => by simp [hts c hc])]
    rw [takeWhile_eq_nil_of_all (fun c hc => by simp [htr c hc])]
    simp
  have e5 : (((t0 :: ts) ++ trail).dropWhile (fun c => !(pyIsSpace c))).dropWhile
      pyIsSpace = [] := by
    rw [dropWhile_append_of_all (l := t0 :: ts) (fun c hc => by simp [hts c hc])]
    cases trail with
    | nil => simp
    | cons c cs =>
      rw [dropWhile_eq_self_of_head (by simp [htr c (List.mem_cons_self c cs)])]
      exact dropWhile_eq_nil_of_all htr
  have hne1 : (v :: vs) ++ ((s0 :: ss) ++ ((t0 :: ts) ++ trail)) ≠ [] := by
    simp
  have hne2 : (t0 :: ts) ++ trail ≠ [] := by simp
  have hsplit : pySplitMax2 ((v :: vs) ++ ((s0 :: ss) ++ ((t0 :: ts) ++ trail)))
      = [v :: vs, t0 :: ts] := by
    rw [pySplitMax2]
    simp only [e1, e2, e3, e4, e5, if_neg hne1, if_neg hne2, if_pos rfl]
    simp
  show tokenizeChars ((v :: vs) ++ (s0 :: ss) ++ (t0 :: ts) ++ trail) = _
  rw [List.append_assoc, List.append_assoc, tokenizeChars, hsplit]

/-- C10 witness: the theorem applied to the message `"/t a:b:c"`. -/
theorem c10_single_token_shortcut_witness :
    tokenizeMessage (String.mk (['/', 't'] ++ [' '] ++ ['a', ':', 'b', ':', 'c'] ++ []))
      = .ok [("shortcut", PyVal.str (String.mk ['a', ':', 'b', ':', 'c']))] :=
  c10_single_token_shortcut ['/', 't'] [' '] ['a', ':', 'b', ':', 'c'] []
    (by decide) (by decide) (by decide) (by decide) (by decide) (by decide) (by decide)

/-! ## Mapping lemmas -/

theorem mGet_mSet_self (m : Mapping) (k : String) (v : PyVal) :
    mGet (mSet m k v) k = some v := by
  induction m with
  | nil => simp [mGet, mSet]
  | cons a rest ih =>
    by_cases h : a.1 = k
    · simp [mGet, mSet, h]
    · simp [mGet, mSet, h, ih]

theorem mGet_mSet_ne (m : Mapping) (k k' : String) (v : PyVal) (h : k ≠ k') :
    mGet (mSet m k v) k' = mGet m k' := by
  induction m with
  | nil => simp [mGet, mSet, h]
  | cons a rest ih =>
    obtain ⟨ak, av⟩ := a
    by_cases hak : ak = k
    · subst hak
      simp [mGet, mSet, h]
    · simp [mGet, mSet, hak, ih]

/-! ## Catch-up loop lemmas -/

/-- Any date produced by the catch-up loop is not before today. -/
theorem catchUpFuel_day_le {f : ℕ} {res : Bool} {p : ℤ} {today date d : DT}
    (h : catchUpFuel f res p today date = some d) : today.day ≤ d.day := by
  induction f generalizing date with
  | zero => exact Option.noConfusion h
  | succ f ih =>
    rw [catchUpFuel] at h
    by_cases hc : date.day < today.day
    · rw [if_pos hc] at h
      cases res with
      | true => exact ih h
      | false => exact ih h
    · rw [if_neg hc] at h
      cases h
      omega

/-- One-step unfolding of the catch-up loop: overdue task, reschedule set. -/
theorem catchUpFuel_succ_lt_true {f : ℕ} {p : ℤ} {today date : DT}
    (hc : date.day < today.day) :
    catchUpFuel (f + 1) true p today date = catchUpFuel f true p today today := by
  rw [catchUpFuel]
  simp [hc]

/-- One-step unfolding of the catch-up loop: overdue task, reschedule unset. -/
theorem catchUpFuel_succ_lt_false {f : ℕ} {p : ℤ} {today date : DT}
    (hc : date.day < today.day) :
    catchUpFuel (f + 1) false p today date =
      catchUpFuel f false p today ⟨date.day + p, date.tod⟩ := by
  rw [catchUpFuel]
  simp [hc]

/-- One-step unfolding of the catch-up loop: task already current. -/
theorem catchUpFuel_succ_ge {f : ℕ} {res : Bool} {p : ℤ} {today date : DT}
    (hc : ¬ date.day < today.day) :
    catchUpFuel (f + 1) res p today date = some date := by
  rw [catchUpFuel]
  simp [hc]

/-- With a positive period the catch-up loop halts within one more step
than the day gap, on a date not before today. -/
theorem catchUpFuel_term {res : Bool} {p : ℤ} {today : DT} (hp : 0 < p) :
    ∀ (g : ℕ) (date : DT), (today.day - date.day).toNat ≤ g →
      ∃ d, catchUpFuel (g + 1) res p today date = some d ∧ today.day ≤ d.day := by
  intro g
  induction g with
  | zero =>
    intro date hg
    have hle : today.day ≤ date.day := by omega
    refine ⟨date, ?_, hle⟩
    exact catchUpFuel_succ_ge (by omega)
  | succ g ih =>
    intro date hg
    by_cases hc : date.day < today.day
    · cases res with
      | true =>
        refine ⟨today, ?_, le_refl _⟩
        rw [catchUpFuel_succ_lt_true hc]
        exact catchUpFuel_succ_ge (by omega)
      | false =>
        obtain ⟨d, hd, hle⟩ :=
          ih ⟨date.day + p, date.tod⟩ (show (today.day - (date.day + p)).toNat ≤ g by omega)
        refine ⟨d, ?_, hle⟩
        rw [catchUpFuel_succ_lt_false hc]
        exact hd
    · exact ⟨date, catchUpFuel_succ_ge hc, by omega⟩

/-- Closed form of the non-reschedule catch-up loop: if `n` is the least
number of period jumps reaching today, the loop adds the period exactly
`n` times. -/
theorem catchUpFuel_exact (n : ℕ) (p : ℤ) (today : DT) :
    ∀ date : DT, 0 < p →
      today.day ≤ date.day + (n : ℤ) * p →
      (∀ j : ℕ, j < n → date.day + (j : ℤ) * p < today.day) →
      catchUpFuel (n + 1) false p today date = some ⟨date.day + (n : ℤ) * p, date.tod⟩ := by
  induction n with
  | zero =>
    intro date _ h1 _
    simp only [Nat.cast_zero, zero_mul, add_zero] at h1 ⊢
    rw [catchUpFuel, if_neg (by omega)]
  | succ n ih =>
    intro date hp h1 h2
    have h0 : date.day < today.day := by
      have := h2 0 (by omega)
      simpa using this
    have hc1 : today.day ≤ (date.day + p) + (n : ℤ) * p := by
      have e : ((n + 1 : ℕ) : ℤ) * p = (n : ℤ) * p + p := by push_cast; ring
      rw [e] at h1
      linarith
    have hc2 : ∀ j : ℕ, j < n → (date.day + p) + (j : ℤ) * p < today.day := by
      intro j hj
      have := h2 (j + 1) (by omega)
      have e : ((j + 1 : ℕ) : ℤ) * p = (j : ℤ) * p + p := by push_cast; ring
      rw [e] at this
      linarith
    have := ih ⟨date.day + p, date.tod⟩ hp hc1 hc2
    rw [catchUpFuel, if_pos h0]
    rw [this]
    simp only [Option.some.injEq, DT.mk.injEq, and_true]
    push_cast
    ring_nf

/-! ## Claim C2 -/

/-- C2 counterexample: task date `D` = day 0, `period P` = 2,
`reschedule = false`, `now` = day 3 (so `k` = 1, `r` = 1).  The loop lands
on day 4 = `D + 2 * P`, not on `D + k * P` = day 2 stated by the claim
(day 2 is also before now's date, contradicting the claim's own side
condition). -/
theorem c2_catchup_counterexample :
    catchUpFuel 4 false 2 ⟨3, 0⟩ ⟨0, 0⟩ = some ⟨4, 0⟩ ∧
    catchUpFuel 4 false 2 ⟨3, 0⟩ ⟨0, 0⟩ ≠ some ⟨2, 0⟩ := by
  exact ⟨rfl, by decide⟩

/-- C2 amended: for a task with date `D`, positive period `P`,
`reschedule = false` and `now = D + k*P + r` days (`k ≥ 1`, `0 ≤ r < P`),
the catch-up loop yields `D + m*P` where `m = k` when `r = 0` and
`m = k + 1` otherwise: the smallest multiple of `P` past `D` whose
calendar date is not before now's calendar date. -/
theorem c2_catchup_amended (D now : DT) (P k r : ℕ) (hP : 0 < P) (_hk : 1 ≤ k)
    (hr : r < P) (hnow : now.day = D.day + ((k * P + r : ℕ) : ℤ)) :
    catchUpFuel ((if r = 0 then k else k + 1) + 1) false (P : ℤ) now D =
      some ⟨D.day + (((if r = 0 then k else k + 1) : ℕ) : ℤ) * (P : ℤ), D.tod⟩ := by
  have hPz : (0 : ℤ) < (P : ℤ) := by exact_mod_cast hP
  apply catchUpFuel_exact _ _ _ _ hPz
  · by_cases h0 : r = 0
    · subst h0
      simp only [if_pos rfl]
      rw [hnow]
      push_cast
      linarith
    · rw [if_neg h0, hnow]
      have e : k * P + r ≤ (k + 1) * P := by
        have e2 : (k + 1) * P = k * P + P := by ring
        omega
      push_cast
      push_cast at e
      linarith
  · intro j hj
    rw [hnow]
    by_cases h0 : r = 0
    · subst h0
      rw [if_pos rfl] at hj
      have : (j : ℤ) * (P : ℤ) < (k : ℤ) * (P : ℤ) :=
        mul_lt_mul_of_pos_right (by exact_mod_cast hj) hPz
      push_cast
      linarith
    · rw [if_neg h0] at hj
      have hjk : j ≤ k := by omega
      have : (j : ℤ) * (P : ℤ) ≤ (k : ℤ) * (P : ℤ) :=
        mul_le_mul_of_nonneg_right (by exact_mod_cast hjk) (by positivity)
      have hr1 : 1 ≤ r := by omega
      push_cast
      have hr1z : (1 : ℤ) ≤ (r : ℤ) := by exact_mod_cast hr1
      linarith

/-- C2 amended witness: `D` = day 0, `P` = 2, `k` = 1, `r` = 1,
`now` = day 3; the loop result is day 4 = `D + (k+1)*P`. -/
theorem c2_catchup_amended_witness :
    0 < 2 ∧ catchUpFuel 3 false 2 ⟨3, 0⟩ ⟨0, 0⟩ = some ⟨4, 0⟩ := by
  refine ⟨by decide, ?_⟩
  have h := c2_catchup_amended ⟨0, 0⟩ ⟨3, 0⟩ 2 1 1 (by decide) (by decide)
    (by decide) (by norm_num)
  norm_num at h
  exact h

/-! ## Claim C8 -/

/-- C8: for a positive period the catch-up loop of `_actualize_tasks`
terminates (under either reschedule policy), and the date it stops on has
reached or passed today's calendar date. -/
theorem c8_catchup_terminates (res : Bool) (p : ℤ) (today date : DT) (hp : 0 < p) :
    ∃ f d, catchUpFuel f res p today date = some d ∧ today.day ≤ d.day := by
  obtain ⟨d, hd, hle⟩ :=
    catchUpFuel_term hp ((today.day - date.day).toNat) date (le_refl _)
  exact ⟨(today.day - date.day).toNat + 1, d, hd, hle⟩

/-- C8 witness at period 1, task a day overdue. -/
theorem c8_catchup_terminates_witness :
    (0 : ℤ) < 1 ∧
      ∃ f d, catchUpFuel f false 1 ⟨1, 0⟩ ⟨0, 0⟩ = some d ∧ (1 : ℤ) ≤ d.day :=
  ⟨by decide, c8_catchup_terminates false 1 ⟨1, 0⟩ ⟨0, 0⟩ (by decide)⟩

/-! ## Resolver lemmas -/

/-- A successful date resolution always stores a datetime under `date`. -/
theorem parseTaskDate_ok {parser : String → Option DT} {now : DT}
    {ts : List STask} {m m1 : Mapping}
    (h : parseTaskDate parser now ts m = .ok m1) :
    ∃ d, m1 = mSet m "date" (.dt d) := by
  rw [parseTaskDate] at h
  split at h
  · split at h
    · simp only [Except.ok.injEq] at h
      exact ⟨_, h.symm⟩
    · exact Except.noConfusion h
  · split at h
    · simp only [Except.ok.injEq] at h
      exact ⟨_, h.symm⟩
    · exact Except.noConfusion h

/-- A successful resolution overlays exactly a datetime `date` and an
integer `period` on the tokenized mapping. -/
theorem parseTask_shape {parser : String → Option DT} {now : DT}
    {ts : List STask} {m m' : Mapping}
    (h : parseTask parser now ts m = .ok m') :
    ∃ d q, m' = mSet (mSet m "date" (.dt d)) "period" (.int q) := by
  rw [parseTask] at h
  split at h
  case h_1 m1 heq =>
    obtain ⟨d, rfl⟩ := parseTaskDate_ok heq
    rw [parseTaskPeriod] at h
    split at h
    case h_1 s hs =>
      split at h
      · simp only [Except.ok.injEq] at h
        exact ⟨d, _, h.symm⟩
      · exact Except.noConfusion h
    case h_2 => exact Except.noConfusion h
    case h_3 =>
      simp only [Except.ok.injEq] at h
      exact ⟨d, _, h.symm⟩
  case h_2 => exact Except.noConfusion h

/-- Resolution leaves every key other than `date` and `period` unchanged. -/
theorem parseTask_preserves {parser : String → Option DT} {now : DT}
    {ts : List STask} {m m' : Mapping}
    (h : parseTask parser now ts m = .ok m') (k : String)
    (h1 : k ≠ "date") (h2 : k ≠ "period") :
    mGet m' k = mGet m k := by
  obtain ⟨d, q, rfl⟩ := parseTask_shape h
  rw [mGet_mSet_ne _ _ _ _ (Ne.symm h2), mGet_mSet_ne _ _ _ _ (Ne.symm h1)]

/-! ## Claim C5 -/

/-- C5: when the message carries a `date` attribute whose text the external
date parser fails on, resolution fails with the
`ValueError("Failed to parse date ...")` of `_parse_task`, and the `add`,
`update` and `complete` commands all fail with that error before touching
the repository (the returned state is the untouched input state by the
`Except` shape of the handlers, which mutate only through the returned
repository). -/
theorem c5_unparseable_date (parser : String → Option DT) (now : DT) (db : DB)
    (u msg : String) (m : Mapping) (s : String)
    (h1 : tokenizeMessage msg = .ok m)
    (h2 : mGet m "date" = some (PyVal.str s))
    (h3 : parser s = none) :
    parseTask parser now (getUsersTasks db u) m = .error ("Failed to parse date " ++ s) ∧
    addCmd parser now db u msg = .error ("Failed to parse date " ++ s) ∧
    updateCmd parser now db u msg = .error ("Failed to parse date " ++ s) ∧
    completeCmd parser now db u msg = .error ("Failed to parse date " ++ s) := by
  have hp : parseTask parser now (getUsersTasks db u) m =
      .error ("Failed to parse date " ++ s) := by
    rw [parseTask, parseTaskDate, h2]
    simp [parseDateField, h3, pyStr]
  refine ⟨hp, ?_, ?_, ?_⟩
  · simp only [addCmd, parseMessage, h1, hp]
  · simp only [updateCmd, parseMessage, h1, hp]
  · simp only [completeCmd, parseMessage, h1, hp]

/-- C5 witness: message `"/add a hi date:zzz"` against a parser that fails
on `"zzz"`. -/
theorem c5_unparseable_date_witness :
    tokenizeMessage "/add a hi date:zzz" =
      .ok [("shortcut", PyVal.str "a"), ("text", PyVal.str "hi"),
           ("date", PyVal.str "zzz")] ∧
    addCmd (fun _ => none) ⟨0, 0⟩ ⟨["u"], []⟩ "u" "/add a hi date:zzz" =
      .error ("Failed to parse date " ++ "zzz") := by
  refine ⟨rfl, ?_⟩
  exact (c5_unparseable_date (fun _ => none) ⟨0, 0⟩ ⟨["u"], []⟩ "u"
    "/add a hi date:zzz" _ "zzz" rfl rfl rfl).2.1

/-! ## Claim C6 -/

/-- C6 counterexample: a supplied `period:-1` resolves to the integer `-1`:
`int()` accepts zero and negative periods and `_parse_task` never checks
positivity, so the resolved period is not always a positive integer. -/
theorem c6_period_counterexample :
    parseTask (fun _ => none) ⟨0, 0⟩ []
        [("shortcut", PyVal.str "a"), ("period", PyVal.str "-1")] =
      .ok [("shortcut", PyVal.str "a"), ("period", PyVal.int (-1)),
           ("date", PyVal.dt ⟨0, 0⟩)] ∧
    ¬ (0 < (-1 : ℤ)) := by
  exact ⟨rfl, by decide⟩

/-- C6 amended: an absent `period` resolves to the positive default
`DEFAULT_PERIOD` = 4; a supplied `period` resolves to whatever integer
`int()` parses from the text, which may be zero or negative — positivity is
not enforced for user-supplied periods. -/
theorem c6_period_amended (parser : String → Option DT) (now : DT)
    (ts : List STask) (m m' : Mapping)
    (h : parseTask parser now ts m = .ok m') :
    (0 : ℤ) < DEFAULT_PERIOD ∧
    (mGet m "period" = none → mGet m' "period" = some (PyVal.int DEFAULT_PERIOD)) ∧
    (∀ s, mGet m "period" = some (PyVal.str s) →
      ∃ n : ℤ, pyInt s = some n ∧ mGet m' "period" = some (PyVal.int n)) := by
  refine ⟨by decide, ?_, ?_⟩
  all_goals
    rw [parseTask] at h
  case _ =>
    intro hnone
    split at h
    case h_1 m1 heq =>
      obtain ⟨d, rfl⟩ := parseTaskDate_ok heq
      have hpp : mGet (mSet m "date" (.dt d)) "period" = mGet m "period" :=
        mGet_mSet_ne _ _ _ _ (by decide)
      rw [parseTaskPeriod, hpp, hnone] at h
      simp only [Except.ok.injEq] at h
      rw [← h]
      exact mGet_mSet_self _ _ _
    case h_2 => exact Except.noConfusion h
  case _ =>
    intro s hs
    split at h
    case h_1 m1 heq =>
      obtain ⟨d, rfl⟩ := parseTaskDate_ok heq
      have hpp : mGet (mSet m "date" (.dt d)) "period" = mGet m "period" :=
        mGet_mSet_ne _ _ _ _ (by decide)
      rw [parseTaskPeriod] at h
      split at h
      next s2 hs2 =>
        rw [hpp, hs] at hs2
        simp only [Option.some.injEq, PyVal.str.injEq] at hs2
        subst hs2
        split at h
        next n hn =>
          simp only [Except.ok.injEq] at h
          refine ⟨n, hn, ?_⟩
          rw [← h]
          exact mGet_mSet_self _ _ _
        next hn => exact Except.noConfusion h
      next v hv hne =>
        rw [hpp, hs] at hne
        simp only [Option.some.injEq] at hne
        exact absurd hne.symm (fun hh => hv _ hh)
      next hv =>
        rw [hpp, hs] at hv
        exact Option.noConfusion hv
    case h_2 => exact Except.noConfusion h

/-- C6 amended witness: resolving a mapping without a period yields the
default 4. -/
theorem c6_period_amended_witness :
    parseTask (fun _ => none) ⟨0, 0⟩ [] [("shortcut", PyVal.str "a")] =
      .ok [("shortcut", PyVal.str "a"), ("date", PyVal.dt ⟨0, 0⟩),
           ("period", PyVal.int 4)] ∧
    ((0 : ℤ) < DEFAULT_PERIOD ∧
      (mGet [("shortcut", PyVal.str "a")] "period" = none →
        mGet [("shortcut", PyVal.str "a"), ("date", PyVal.dt ⟨0, 0⟩),
          ("period", PyVal.int 4)] "period" = some (PyVal.int DEFAULT_PERIOD)) ∧
      (∀ s, mGet [("shortcut", PyVal.str "a")] "period" = some (PyVal.str s) →
        ∃ n : ℤ, pyInt s = some n ∧
          mGet [("shortcut", PyVal.str "a"), ("date", PyVal.dt ⟨0, 0⟩),
            ("period", PyVal.int 4)] "period" = some (PyVal.int n))) :=
  ⟨rfl, c6_period_amended (fun _ => none) ⟨0, 0⟩ [] _ _ rfl⟩

/-! ## Claim C4 -/

/-- C4 counterexample: the stored task has period 7 and date day 10; the
update message `"/update a newtext"` supplies neither `period` nor `date`,
yet after the update the stored period is the resolver default 4 and the
stored date is the suitable-date result day 0 — `update` runs the full
resolver, which always fills `date` and `period`, and then overlays both
onto the task. -/
theorem c4_update_counterexample :
    updateCmd (fun _ => none) ⟨0, 0⟩
        ⟨["u"], [⟨"u", "a", some "old", ⟨10, 0⟩, 7, false, []⟩]⟩
        "u" "/update a newtext" =
      .ok (⟨["u"], [⟨"u", "a", some "newtext", ⟨0, 0⟩, 4, false, []⟩]⟩,
        "Successfully updated task a") ∧
    (7 : ℤ) ≠ 4 ∧ (⟨10, 0⟩ : DT) ≠ ⟨0, 0⟩ := by
  exact ⟨rfl, by decide, by decide⟩

/-- C4 amended: after `update`'s resolution, the overlay always rewrites
`date` and `period` with the resolved values (parsed from the message when
supplied, resolver defaults when not); `text`, `user` and the other
message-suppliable keys are rewritten exactly when the message supplies
them; and fields the parsed mapping cannot carry (`reschedule`,
`completions`, modulo the type-confused raw-string writes noted at
`applyUpdate`) keep their previous values. -/
theorem c4_update_amended (parser : String → Option DT) (now : DT)
    (ts : List STask) (m m' : Mapping) (t : STask)
    (h : parseTask parser now ts m = .ok m') :
    (∃ d, mGet m' "date" = some (PyVal.dt d) ∧ (applyUpdate t m').date = d) ∧
    (∃ q, mGet m' "period" = some (PyVal.int q) ∧ (applyUpdate t m').period = q) ∧
    (mGet m "text" = none → (applyUpdate t m').text = t.text) ∧
    (∀ s, mGet m "text" = some (PyVal.str s) → (applyUpdate t m').text = some s) ∧
    (mGet m "user" = none → (applyUpdate t m').user = t.user) ∧
    (mGet m "reschedule" = none → (applyUpdate t m').reschedule = t.reschedule) ∧
    (mGet m "completions" = none → (applyUpdate t m').completions = t.completions) := by
  obtain ⟨d, q, hm⟩ := parseTask_shape h
  have hd : mGet m' "date" = some (PyVal.dt d) := by
    rw [hm, mGet_mSet_ne _ _ _ _ (by decide), mGet_mSet_self]
  have hq : mGet m' "period" = some (PyVal.int q) := by
    rw [hm, mGet_mSet_self]
  have htext : mGet m' "text" = mGet m "text" :=
    parseTask_preserves h "text" (by decide) (by decide)
  have huser : mGet m' "user" = mGet m "user" :=
    parseTask_preserves h "user" (by decide) (by decide)
  refine ⟨⟨d, hd, ?_⟩, ⟨q, hq, ?_⟩, ?_, ?_, ?_, ?_, ?_⟩
  · simp [applyUpdate, hd]
  · simp [applyUpdate, hq]
  · intro hn
    simp [applyUpdate, htext, hn]
  · intro s hsome
    simp [applyUpdate, htext, hsome]
  · intro hn
    simp [applyUpdate, huser, hn]
  · intro _
    simp [applyUpdate]
  · intro _
    simp [applyUpdate]

/-- C4 amended witness: a message supplying only a shortcut, overlaid on a
task with period 7. -/
theorem c4_update_amended_witness :
    parseTask (fun _ => none) ⟨0, 0⟩ [] [("shortcut", PyVal.str "a")] =
      .ok [("shortcut", PyVal.str "a"), ("date", PyVal.dt ⟨0, 0⟩),
           ("period", PyVal.int 4)] ∧
    (applyUpdate ⟨"u", "a", some "old", ⟨10, 0⟩, 7, false, []⟩
        [("shortcut", PyVal.str "a"), ("date", PyVal.dt ⟨0, 0⟩),
         ("period", PyVal.int 4)]).period = 4 := by
  refine ⟨rfl, ?_⟩
  obtain ⟨-, ⟨q, hq, hper⟩, -⟩ :=
    c4_update_amended (fun _ => none) ⟨0, 0⟩ [] [("shortcut", PyVal.str "a")]
      [("shortcut", PyVal.str "a"), ("date", PyVal.dt ⟨0, 0⟩), ("period", PyVal.int 4)]
      ⟨"u", "a", some "old", ⟨10, 0⟩, 7, false, []⟩ rfl
  have h4 : some (PyVal.int 4) = some (PyVal.int q) := by rw [← hq]; rfl
  have hq4 : (4 : ℤ) = q := by simpa using h4
  rw [hper, ← hq4]

/-! ## Suitable-date search lemmas -/

/-- Splitting the tasks at or after day `d` into those exactly on `d` and
those strictly after. -/
theorem filter_day_split (tasks : List STask) (d : ℤ) :
    (tasks.filter (fun t => decide (d ≤ t.date.day))).length =
      countDay tasks d + (tasks.filter (fun t => decide (d + 1 ≤ t.date.day))).length := by
  induction tasks with
  | nil => simp [countDay]
  | cons t ts ih =>
    simp only [countDay, List.filter_cons] at ih ⊢
    by_cases h1 : t.date.day = d
    · have h2 : d ≤ t.date.day := by omega
      have h3 : ¬ (d + 1 ≤ t.date.day) := by omega
      simp [h1, h2, h3, ih]
      omega
    · by_cases h2 : d ≤ t.date.day
      · have h3 : d + 1 ≤ t.date.day := by omega
        simp [h1, h2, h3, ih]
        omega
      · have h3 : ¬ (d + 1 ≤ t.date.day) := by omega
        simp [h1, h2, h3, ih]

/-- Correctness of the suitable-date walk, with fuel exceeding the number
of tasks at or after the start day: it halts on the first day from `now`
(keeping the time of day) that holds fewer than `TASK_PER_DAY_LIMIT`
tasks. -/
theorem suitableDateFuel_spec : ∀ (f : ℕ) (cur : DT) (tasks : List STask),
    (tasks.filter (fun t => decide (cur.day ≤ t.date.day))).length < f →
    ∃ d : DT, suitableDateFuel f cur tasks = some d ∧ d.tod = cur.tod ∧
      cur.day ≤ d.day ∧ countDay tasks d.day < TASK_PER_DAY_LIMIT ∧
      ∀ x : ℤ, cur.day ≤ x → x < d.day → TASK_PER_DAY_LIMIT ≤ countDay tasks x := by
  intro f
  induction f with
  | zero =>
    intro cur tasks h
    exact absurd h (by omega)
  | succ f ih =>
    intro cur tasks h
    by_cases hc : TASK_PER_DAY_LIMIT ≤ countDay tasks cur.day
    · have hsplit := filter_day_split tasks cur.day
      have hc3 : 3 ≤ countDay tasks cur.day := hc
      have hih : (tasks.filter (fun t => decide (cur.day + 1 ≤ t.date.day))).length < f := by
        omega
      obtain ⟨d, hd, htod, hge, hcnt, hmin⟩ := ih ⟨cur.day + 1, cur.tod⟩ tasks hih
      have hge' : cur.day + 1 ≤ d.day := hge
      have htod' : d.tod = cur.tod := htod
      refine ⟨d, ?_, htod', by omega, hcnt, ?_⟩
      · rw [suitableDateFuel, if_pos hc]
        exact hd
      · intro x hx1 hx2
        by_cases hxc : x = cur.day
        · rw [hxc]
          exact hc
        · exact hmin x (show cur.day + 1 ≤ x by omega) hx2
    · refine ⟨cur, ?_, rfl, le_refl _, by omega, fun x hx1 hx2 => absurd hx1 (by omega)⟩
      rw [suitableDateFuel, if_neg hc]

/-! ## Claim C7 -/

/-- C7: with no supplied date, the suitable-date search starts at `now` and
walks forward one day at a time, halting on the first calendar day holding
fewer than `TASK_PER_DAY_LIMIT` (3) of the user's tasks; days skipped over
all held at least 3.  In particular (second conjunct, encoding 2024-01-01
as day 0 and 2024-01-02 as day 1): with three existing tasks on day 0 and
`now` = day 0, resolution with no explicit date yields day 1. -/
theorem c7_suitable_date :
    (∀ (now : DT) (tasks : List STask),
      ∃ d : DT, suitableDateFuel (tasks.length + 1) now tasks = some d ∧
        d.tod = now.tod ∧ now.day ≤ d.day ∧
        countDay tasks d.day < TASK_PER_DAY_LIMIT ∧
        ∀ x : ℤ, now.day ≤ x → x < d.day → TASK_PER_DAY_LIMIT ≤ countDay tasks x) ∧
    parseTask (fun _ => none) ⟨0, 0⟩
        [⟨"u", "t1", none, ⟨0, 0⟩, 4, false, []⟩,
         ⟨"u", "t2", none, ⟨0, 0⟩, 4, false, []⟩,
         ⟨"u", "t3", none, ⟨0, 0⟩, 4, false, []⟩]
        [("shortcut", PyVal.str "t4")] =
      .ok [("shortcut", PyVal.str "t4"), ("date", PyVal.dt ⟨1, 0⟩),
           ("period", PyVal.int 4)] := by
  constructor
  · intro now tasks
    apply suitableDateFuel_spec
    have := List.length_filter_le (fun t => decide (now.day ≤ t.date.day)) tasks
    omega
  · rfl

/-! ## Claim C9 -/

/-- C9: the `complete` handler never reaches the claimed behaviour.  It
runs the full `parse_message` resolution, which always stores a resolved
datetime under `date`; the `'date' in task` test is therefore always true,
the default-to-now branch is dead, and the handler feeds that datetime
back into the text date parser, which fails on a non-string — here on
`"/complete a"` (no date attribute) against a stored task `a`, instead of
appending now to `completions` and setting `date = now + period`. -/
theorem c9_complete_never_defaults_to_now :
    completeCmd (fun _ => none) ⟨0, 0⟩
        ⟨["u"], [⟨"u", "a", none, ⟨5, 0⟩, 4, false, []⟩]⟩ "u" "/complete a" =
      .error "TypeError: input must be str" := rfl

/-! ## Actualize sweep lemmas -/

/-- Fields of a caught-up task: the date has reached today, everything else
is unchanged. -/
theorem catchUpTask_ok {fuel : ℕ} {now : DT} {t t' : STask}
    (h : catchUpTask fuel now t = some t') :
    now.day ≤ t'.date.day ∧ t'.user = t.user ∧ t'.shortcut = t.shortcut ∧
      t'.period = t.period ∧ t'.reschedule = t.reschedule := by
  rw [catchUpTask] at h
  split at h
  next d hd =>
    simp only [Option.some.injEq] at h
    subst h
    exact ⟨catchUpFuel_day_le hd, rfl, rfl, rfl, rfl⟩
  next hd => exact Option.noConfusion h

/-- A task with positive period and day gap at most `G` catches up within
fuel `G + 1`. -/
theorem catchUpTask_term {now : DT} {G : ℕ} {t : STask} (hp : 0 < t.period)
    (hg : (now.day - t.date.day).toNat ≤ G) :
    ∃ t', catchUpTask (G + 1) now t = some t' := by
  obtain ⟨d, hd, -⟩ := @catchUpFuel_term t.reschedule t.period now hp G t.date hg
  exact ⟨{ t with date := d }, by simp [catchUpTask, hd]⟩

/-- The inner loop of `_actualize_tasks` over one user's snapshot `S`: it
succeeds, acts on the stored tasks as a pointwise map that either leaves an
entry alone or replaces it (keeping user, shortcut and a positive period)
by a caught-up task, and catches up every entry matching some snapshot
element. -/
theorem foldTasks_spec (now : DT) (G : ℕ) :
    ∀ (S : List STask) (db1 : DB),
    (∀ s ∈ S, 0 < s.period ∧ (now.day - s.date.day).toNat ≤ G) →
    ∃ g : STask → STask,
      foldTasks (actStep (G + 1) now) db1 S =
        some { users := db1.users, tasks := db1.tasks.map g } ∧
      (∀ e, g e = e ∨ (now.day ≤ (g e).date.day ∧ 0 < (g e).period ∧
        (g e).user = e.user ∧ (g e).shortcut = e.shortcut)) ∧
      (∀ e, (∃ s ∈ S, e.user = s.user ∧ e.shortcut = s.shortcut) →
        now.day ≤ (g e).date.day ∧ 0 < (g e).period) := by
  intro S
  induction S with
  | nil =>
    intro db1 hS
    refine ⟨id, ?_, fun e => Or.inl rfl, fun e he => ?_⟩
    · rw [foldTasks]
      simp
    · obtain ⟨s, hs, -⟩ := he
      exact absurd hs (List.not_mem_nil s)
  | cons s S' ih =>
    intro db1 hS
    obtain ⟨hp, hg⟩ := hS s (List.mem_cons_self s S')
    obtain ⟨t', ht'⟩ := catchUpTask_term hp hg
    obtain ⟨hle, hu, hsc, hper, -⟩ := catchUpTask_ok ht'
    have hstep : foldTasks (actStep (G + 1) now) db1 (s :: S') =
        foldTasks (actStep (G + 1) now) (updateTask db1 t') S' := by
      rw [foldTasks]
      simp [actStep, ht']
    obtain ⟨g', hfold, ha', hb'⟩ :=
      ih (updateTask db1 t') (fun x hx => hS x (List.mem_cons_of_mem s hx))
    have hmain : now.day ≤ (g' t').date.day ∧ 0 < (g' t').period ∧
        (g' t').user = t'.user ∧ (g' t').shortcut = t'.shortcut := by
      rcases ha' t' with h1 | h2
      · rw [h1]
        exact ⟨hle, by rw [hper]; exact hp, rfl, rfl⟩
      · exact h2
    refine ⟨fun e => g' (updTask1 t' e), ?_, ?_, ?_⟩
    · rw [hstep, hfold]
      simp [updateTask, List.map_map, Function.comp]
    · intro e
      beta_reduce
      by_cases hm : e.user = t'.user ∧ e.shortcut = t'.shortcut
      · have hup : updTask1 t' e = t' := by rw [updTask1, if_pos hm]
        rw [hup]
        right
        exact ⟨hmain.1, hmain.2.1, hmain.2.2.1.trans hm.1.symm,
          hmain.2.2.2.trans hm.2.symm⟩
      · have hup : updTask1 t' e = e := by rw [updTask1, if_neg hm]
        rw [hup]
        exact ha' e
    · intro e he
      beta_reduce
      obtain ⟨s0, hs0mem, hs0u, hs0sc⟩ := he
      by_cases hm : e.user = t'.user ∧ e.shortcut = t'.shortcut
      · have hup : updTask1 t' e = t' := by rw [updTask1, if_pos hm]
        rw [hup]
        exact ⟨hmain.1, hmain.2.1⟩
      · have hup : updTask1 t' e = e := by rw [updTask1, if_neg hm]
        rw [hup]
        rcases List.mem_cons.mp hs0mem with rfl | hmem'
        · exact absurd ⟨hs0u.trans hu.symm, hs0sc.trans hsc.symm⟩ hm
        · exact hb' e ⟨s0, hmem', hs0u, hs0sc⟩

/-- The outer loop of `_actualize_tasks` over a list of user names: the
sweep succeeds, keeps the user list and the stored entries pointwise, and
every stored task of a swept user ends at or past today. -/
theorem foldUsers_spec (now : DT) (G : ℕ) :
    ∀ (us : List String) (db1 : DB),
    (∀ t ∈ db1.tasks, 0 < t.period ∧ (now.day - t.date.day).toNat ≤ G) →
    ∃ g : STask → STask,
      foldUsers (actualizeUser (G + 1) now) db1 us =
        some { users := db1.users, tasks := db1.tasks.map g } ∧
      (∀ e, g e = e ∨ (now.day ≤ (g e).date.day ∧ 0 < (g e).period ∧
        (g e).user = e.user ∧ (g e).shortcut = e.shortcut)) ∧
      (∀ e ∈ db1.tasks, e.user ∈ us → now.day ≤ (g e).date.day) := by
  intro us
  induction us with
  | nil =>
    intro db1 h
    refine ⟨id, ?_, fun e => Or.inl rfl, fun e _ hmem => absurd hmem (List.not_mem_nil _)⟩
    rw [foldUsers]
    simp
  | cons u us' ih =>
    intro db1 hinv
    have hS : ∀ s ∈ getUsersTasks db1 u,
        0 < s.period ∧ (now.day - s.date.day).toNat ≤ G :=
      fun s hs => hinv s (List.mem_of_mem_filter hs)
    obtain ⟨g1, hf1, ha1, hb1⟩ := foldTasks_spec now G (getUsersTasks db1 u) db1 hS
    have hstep : foldUsers (actualizeUser (G + 1) now) db1 (u :: us') =
        foldUsers (actualizeUser (G + 1) now)
          { users := db1.users, tasks := db1.tasks.map g1 } us' := by
      rw [foldUsers]
      simp [actualizeUser, hf1]
    have hinv2 : ∀ t ∈ db1.tasks.map g1,
        0 < t.period ∧ (now.day - t.date.day).toNat ≤ G := by
      intro t ht
      obtain ⟨e, he, rfl⟩ := List.mem_map.mp ht
      rcases ha1 e with h1 | h2
      · rw [h1]
        exact hinv e he
      · refine ⟨h2.2.1, ?_⟩
        have := h2.1
        omega
    obtain ⟨g2, hf2, ha2, hb2⟩ :=
      ih { users := db1.users, tasks := db1.tasks.map g1 } hinv2
    refine ⟨fun e => g2 (g1 e), ?_, ?_, ?_⟩
    · rw [hstep, hf2]
      simp [List.map_map, Function.comp]
    · intro e
      beta_reduce
      rcases ha1 e with h1 | h2
      · rw [h1]
        exact ha2 e
      · rcases ha2 (g1 e) with h3 | h4
        · right
          rw [h3]
          exact h2
        · right
          exact ⟨h4.1, h4.2.1, h4.2.2.1.trans h2.2.2.1, h4.2.2.2.trans h2.2.2.2⟩
    · intro e hmem hus
      beta_reduce
      rcases List.mem_cons.mp hus with heq | hin
      · have heS : e ∈ getUsersTasks db1 u := by
          rw [getUsersTasks]
          exact List.mem_filter.mpr ⟨hmem, by simp [heq]⟩
        have hb := hb1 e ⟨e, heS, rfl, rfl⟩
        rcases ha2 (g1 e) with h3 | h4
        · rw [h3]
          exact hb.1
        · exact h4.1
      · have hmem2 : g1 e ∈ db1.tasks.map g1 := List.mem_map_of_mem g1 hmem
        have huser1 : (g1 e).user = e.user := by
          rcases ha1 e with h1 | h2
          · rw [h1]
          · exact h2.2.2.1
        exact hb2 (g1 e) hmem2 (by rw [huser1]; exact hin)

/-- Any member of a list of naturals is at most its folded maximum. -/
theorem le_foldr_max (l : List ℕ) (a : ℕ) (h : a ∈ l) : a ≤ l.foldr max 0 := by
  induction l with
  | nil => exact absurd h (List.not_mem_nil a)
  | cons b l ih =>
    rcases List.mem_cons.mp h with rfl | hin
    · exact le_max_left _ _
    · exact le_trans (ih hin) (le_max_right _ _)

/-! ## Claim C3 -/

/-- C3: provided every stored task has a positive period (the spec's own
resolution invariant; an overdue non-reschedule task with period zero or
less would make the source's while loop diverge) and every task's owner is
a registered user (tasks of unregistered owners are skipped by the sweep),
the `_actualize_tasks` sweep terminates, keeps the user list and the number
of stored tasks, and leaves every stored task's calendar date not before
today's. -/
theorem c3_actualize_sweep (now : DT) (db : DB)
    (hper : ∀ t ∈ db.tasks, 0 < t.period)
    (husers : ∀ t ∈ db.tasks, t.user ∈ db.users) :
    ∃ fuel db', actualizeDB fuel now db = some db' ∧
      db'.users = db.users ∧ db'.tasks.length = db.tasks.length ∧
      ∀ t ∈ db'.tasks, now.day ≤ t.date.day := by
  have hG : ∀ t ∈ db.tasks, (now.day - t.date.day).toNat ≤
      (db.tasks.map (fun t => (now.day - t.date.day).toNat)).foldr max 0 :=
    fun t ht => le_foldr_max _ _ (List.mem_map_of_mem _ ht)
  obtain ⟨g, hf, ha, hb⟩ :=
    foldUsers_spec now ((db.tasks.map (fun t => (now.day - t.date.day).toNat)).foldr max 0)
      db.users db (fun t ht => ⟨hper t ht, hG t ht⟩)
  refine ⟨_, _, hf, rfl, by simp, ?_⟩
  intro t ht
  obtain ⟨e, he, rfl⟩ := List.mem_map.mp ht
  exact hb e he (husers e he)

/-- C3 witness: a one-user repository with one overdue task. -/
theorem c3_actualize_sweep_witness :
    (∀ t ∈ (⟨["u"], [⟨"u", "a", none, ⟨0, 0⟩, 4, false, []⟩]⟩ : DB).tasks,
      0 < t.period) ∧
    (∀ t ∈ (⟨["u"], [⟨"u", "a", none, ⟨0, 0⟩, 4, false, []⟩]⟩ : DB).tasks,
      t.user ∈ (⟨["u"], [⟨"u", "a", none, ⟨0, 0⟩, 4, false, []⟩]⟩ : DB).users) ∧
    (∃ fuel db', actualizeDB fuel ⟨9, 0⟩
        ⟨["u"], [⟨"u", "a", none, ⟨0, 0⟩, 4, false, []⟩]⟩ = some db' ∧
      db'.users = ["u"] ∧ db'.tasks.length = 1 ∧
      ∀ t ∈ db'.tasks, (9 : ℤ) ≤ t.date.day) :=
  ⟨by decide, by decide,
    c3_actualize_sweep ⟨9, 0⟩ ⟨["u"], [⟨"u", "a", none, ⟨0, 0⟩, 4, false, []⟩]⟩
      (by decide) (by decide)⟩
